import Mathlib

/-!
Verification of the digit-recognition core of the `voisins` repository
(`screen_ocr.py`, `screen_ocr_opencv.py`).

The embedding is shallow: OCR text is represented by the list of nonnegative
integer tokens matched by the digit regex, images by grids of gray values,
and OpenCV primitives by explicit oracle functions recording only their
numeric outputs and their success or failure, so that the control flow of the
Python source (guards, fallbacks, `try`/`except` recovery) is reproduced
exactly.
-/

namespace Voisins

/-! ### Text-based number extraction
`screen_ocr_opencv.py` lines 397-436 and `screen_ocr.py` lines 522-558.
A token is the integer value of one maximal digit run found by the regex
`\b\d+\b` / `\d+`; such a value is always a nonnegative integer, so the
`ValueError` branch of the source is unreachable and tokens are `Nat`. -/

/-- The range test `0 <= num <= 36` applied to every token
(`0 <= num` is automatic for `Nat`). -/
def roulette_filter (tokens : List Nat) : List Nat :=
  tokens.filter (fun n => decide (n ≤ 36))

/-- Python `list(dict.fromkeys(l))`: keeps the first occurrence of each
value, in order of first appearance. -/
def dict_fromkeys (l : List Nat) : List Nat :=
  l.foldl (fun acc n => if n ∈ acc then acc else acc ++ [n]) []

/-- `ScreenOCRTool.extract_roulette_numbers_from_text`
(`screen_ocr_opencv.py` 397-436): filter tokens to the range 0-36, then
remove duplicates preserving first-occurrence order. -/
def extract_roulette_numbers_from_text (tokens : List Nat) : List Nat :=
  dict_fromkeys (roulette_filter tokens)

/-- `ScreenOCRTool.extract_numbers_simple_roulette`
(`screen_ocr.py` 522-558): filter tokens to the range 0-36; no
deduplication is applied on this path. -/
def extract_numbers_simple_roulette (tokens : List Nat) : List Nat :=
  roulette_filter tokens

theorem dict_fromkeys_go (l : List Nat) : ∀ acc : List Nat,
    ∃ s : List Nat,
      l.foldl (fun acc n => if n ∈ acc then acc else acc ++ [n]) acc = acc ++ s ∧
      s.Sublist l ∧ s.Nodup ∧ ∀ a ∈ s, a ∉ acc := by
  induction l with
  | nil =>
      intro acc
      exact ⟨[], by simp, List.nil_sublist _, List.nodup_nil, by simp⟩
  | cons n rest ih =>
      intro acc
      by_cases h : n ∈ acc
      · obtain ⟨s, h1, h2, h3, h4⟩ := ih acc
        refine ⟨s, ?_, h2.cons n, h3, h4⟩
        simpa [h] using h1
      · obtain ⟨s, h1, h2, h3, h4⟩ := ih (acc ++ [n])
        refine ⟨n :: s, ?_, h2.cons₂ n, ?_, ?_⟩
        · simpa [h, List.append_assoc] using h1
        · refine List.nodup_cons.2 ⟨fun hmem => ?_, h3⟩
          exact h4 n hmem (by simp)
        · intro a ha
          rcases List.mem_cons.1 ha with rfl | ha'
          · exact h
          · intro hacc
            exact h4 a ha' (by simp [hacc])

theorem dict_fromkeys_sublist (l : List Nat) : (dict_fromkeys l).Sublist l := by
  obtain ⟨s, h1, h2, _, _⟩ := dict_fromkeys_go l []
  simpa [dict_fromkeys, h1] using h2

theorem dict_fromkeys_nodup (l : List Nat) : (dict_fromkeys l).Nodup := by
  obtain ⟨s, h1, _, h3, _⟩ := dict_fromkeys_go l []
  simpa [dict_fromkeys, h1] using h3

theorem mem_roulette_filter {tokens : List Nat} {n : Nat}
    (h : n ∈ roulette_filter tokens) : n ∈ tokens ∧ n ≤ 36 := by
  have := List.of_mem_filter h
  exact ⟨List.mem_of_mem_filter h, by simpa using this⟩

/-- C1: both text-extraction paths return only values in [0,36]; a token
whose value lies outside that range never appears in the result. -/
theorem c1_range_filter :
    (∀ tokens n, n ∈ extract_roulette_numbers_from_text tokens → n ≤ 36) ∧
    (∀ tokens n, 36 < n → n ∉ extract_roulette_numbers_from_text tokens) ∧
    (∀ tokens n, n ∈ extract_numbers_simple_roulette tokens → n ≤ 36) ∧
    (∀ tokens n, 36 < n → n ∉ extract_numbers_simple_roulette tokens) := by
  have key : ∀ tokens n, n ∈ extract_roulette_numbers_from_text tokens → n ≤ 36 := by
    intro tokens n hmem
    have hsub := dict_fromkeys_sublist (roulette_filter tokens)
    exact (mem_roulette_filter (hsub.subset hmem)).2
  have keys : ∀ tokens n, n ∈ extract_numbers_simple_roulette tokens → n ≤ 36 := by
    intro tokens n hmem
    exact (mem_roulette_filter hmem).2
  refine ⟨key, ?_, keys, ?_⟩
  · intro tokens n hgt hmem
    exact absurd (key tokens n hmem) (by omega)
  · intro tokens n hgt hmem
    exact absurd (keys tokens n hmem) (by omega)

theorem c1_range_filter_witness :
    36 < 41 ∧ (41 ∉ extract_roulette_numbers_from_text [41, 7]) :=
  ⟨by omega, c1_range_filter.2.1 [41, 7] 41 (by omega)⟩

/-- C4: `extract_roulette_numbers_from_text` (the deduplicating path) folds
`[5,5,12,5]` to `[5,12]` and in general returns a duplicate-free
subsequence of the filtered token list (global dedup preserving
first-occurrence order); `extract_numbers_simple_roulette` (the
non-deduplicating path) preserves the full repeated sequence unchanged
whenever every token is in range. -/
theorem c4_dedup_modes :
    extract_roulette_numbers_from_text [5, 5, 12, 5] = [5, 12] ∧
    extract_numbers_simple_roulette [5, 5, 12, 5] = [5, 5, 12, 5] ∧
    (∀ tokens, (extract_roulette_numbers_from_text tokens).Nodup ∧
      (extract_roulette_numbers_from_text tokens).Sublist (roulette_filter tokens)) ∧
    (∀ tokens, (∀ n ∈ tokens, n ≤ 36) →
      extract_numbers_simple_roulette tokens = tokens) := by
  refine ⟨by decide, by decide, ?_, ?_⟩
  · intro tokens
    exact ⟨dict_fromkeys_nodup _, dict_fromkeys_sublist _⟩
  · intro tokens hall
    simp only [extract_numbers_simple_roulette, roulette_filter]
    exact List.filter_eq_self.2 fun n hn => by simpa using hall n hn

theorem c4_dedup_modes_witness :
    extract_numbers_simple_roulette [5, 5, 12, 5] = [5, 5, 12, 5] :=
  c4_dedup_modes.2.2.2 [5, 5, 12, 5] (by decide)

/-! ### Candidate fusion
`ScreenOCRTool.try_local_opencv_detection`, `screen_ocr_opencv.py` 463-524:
the dedup loop over `all_results` (lines 506-510) followed by the sort by
x position (line 513). -/

/-- One detected candidate: the tuple `(x, predicted_digit, confidence,
method_name)` appended to `all_results` (line 491). -/
structure Cand where
  x : Nat
  num : Nat
  conf : ℚ
  method : String
deriving DecidableEq

/-- The grouping key `(int(x_pos // 30), num)` of line 508: the spatial
bucket is paired with the predicted value. -/
def bucket_key (c : Cand) : Nat × Nat := (c.x / 30, c.num)

/-- Lookup in an insertion-ordered association list (Python dict lookup). -/
def dict_find : List ((Nat × Nat) × Cand) → Nat × Nat → Option Cand
  | [], _ => none
  | (k', c) :: rest, k => if k' = k then some c else dict_find rest k

/-- The assignment `d[key] = value` on an insertion-ordered association
list: replaces the stored value in place when the key is present, otherwise
appends at the end (Python dict update semantics). -/
def dict_set : List ((Nat × Nat) × Cand) → Nat × Nat → Cand → List ((Nat × Nat) × Cand)
  | [], k, c => [(k, c)]
  | (k', c') :: rest, k, c =>
      if k' = k then (k, c) :: rest else (k', c') :: dict_set rest k c

/-- One iteration of the dedup loop (lines 507-510): the entry for the key
is overwritten exactly when the key is absent or the stored confidence is
strictly smaller than the new candidate's. -/
def fuse_step (d : List ((Nat × Nat) × Cand)) (c : Cand) : List ((Nat × Nat) × Cand) :=
  match dict_find d (bucket_key c) with
  | none => dict_set d (bucket_key c) c
  | some old => if old.conf < c.conf then dict_set d (bucket_key c) c else d

/-- The dict `unique_results` after the whole loop (lines 506-510). -/
def unique_results (l : List Cand) : List ((Nat × Nat) × Cand) :=
  l.foldl fuse_step []

/-- The sort key `lambda x: x[0]` of line 513 as a relation on candidates. -/
def cand_le (a b : Cand) : Prop := a.x ≤ b.x

instance : DecidableRel cand_le := fun a b => Nat.decLe a.x b.x

instance : IsTotal Cand cand_le := ⟨fun a b => Nat.le_total a.x b.x⟩

instance : IsTrans Cand cand_le := ⟨fun _ _ _ => Nat.le_trans⟩

/-- `final_results = sorted(unique_results.values(), key=lambda x: x[0])`
(line 513). Python's `sorted` is stable, as is `List.insertionSort`. -/
def final_results (l : List Cand) : List Cand :=
  List.insertionSort cand_le ((unique_results l).map Prod.snd)

/-- `numbers = [num for _, num, _, _ in final_results]` (line 516). -/
def fused_numbers (l : List Cand) : List Nat :=
  (final_results l).map Cand.num

theorem dict_find_eq_none {d : List ((Nat × Nat) × Cand)} {k : Nat × Nat} :
    dict_find d k = none ↔ k ∉ d.map Prod.fst := by
  induction d with
  | nil => simp [dict_find]
  | cons p rest ih =>
      obtain ⟨k', c⟩ := p
      by_cases h : k' = k
      · subst h; simp [dict_find]
      · simp [dict_find, h, ih, Ne.symm h]

theorem dict_find_of_mem {d : List ((Nat × Nat) × Cand)}
    (hnd : (d.map Prod.fst).Nodup) {k : Nat × Nat} {c : Cand}
    (h : (k, c) ∈ d) : dict_find d k = some c := by
  induction d with
  | nil => simp at h
  | cons p rest ih =>
      obtain ⟨k', c'⟩ := p
      rcases List.mem_cons.1 h with heq | hmem
      · obtain ⟨rfl, rfl⟩ := Prod.mk.injEq _ _ _ _ ▸ heq
        simp [dict_find]
      · by_cases hk : k' = k
        · subst hk
          exfalso
          have : k' ∈ rest.map Prod.fst := List.mem_map.2 ⟨(k', c), hmem, rfl⟩
          exact (List.nodup_cons.1 hnd).1 this
        · simpa [dict_find, hk] using ih (List.nodup_cons.1 hnd).2 hmem

theorem mem_dict_set_weak {d : List ((Nat × Nat) × Cand)} {k : Nat × Nat}
    {c : Cand} {p : (Nat × Nat) × Cand} (h : p ∈ dict_set d k c) :
    p = (k, c) ∨ p ∈ d := by
  induction d with
  | nil => simpa [dict_set] using h
  | cons q rest ih =>
      obtain ⟨k', c'⟩ := q
      by_cases hk : k' = k
      · subst hk
        simp only [dict_set, if_pos rfl] at h
        rcases List.mem_cons.1 h with h | h
        · exact Or.inl h
        · exact Or.inr (List.mem_cons.2 (Or.inr h))
      · simp only [dict_set, if_neg hk] at h
        rcases List.mem_cons.1 h with h | h
        · exact Or.inr (List.mem_cons.2 (Or.inl h))
        · rcases ih h with h | h
          · exact Or.inl h
          · exact Or.inr (List.mem_cons.2 (Or.inr h))

theorem dict_set_keys_some {d : List ((Nat × Nat) × Cand)} {k : Nat × Nat}
    {c₀ : Cand} (h : dict_find d k = some c₀) (c : Cand) :
    (dict_set d k c).map Prod.fst = d.map Prod.fst := by
  induction d with
  | nil => simp [dict_find] at h
  | cons q rest ih =>
      obtain ⟨k', c'⟩ := q
      by_cases hk : k' = k
      · subst hk; simp [dict_set]
      · simp only [dict_find, if_neg hk] at h
        simp [dict_set, hk, ih h]

theorem dict_set_keys_none {d : List ((Nat × Nat) × Cand)} {k : Nat × Nat}
    (h : dict_find d k = none) (c : Cand) :
    (dict_set d k c).map Prod.fst = d.map Prod.fst ++ [k] := by
  induction d with
  | nil => simp [dict_set]
  | cons q rest ih =>
      obtain ⟨k', c'⟩ := q
      by_cases hk : k' = k
      · subst hk; simp [dict_find] at h
      · simp only [dict_find, if_neg hk] at h
        simp [dict_set, hk, ih h]

theorem dict_set_nodup {d : List ((Nat × Nat) × Cand)} {k : Nat × Nat}
    (hnd : (d.map Prod.fst).Nodup) (c : Cand) :
    ((dict_set d k c).map Prod.fst).Nodup := by
  cases h : dict_find d k with
  | none =>
      rw [dict_set_keys_none h]
      have hk : k ∉ d.map Prod.fst := dict_find_eq_none.1 h
      simp [List.nodup_append, hnd, hk]
  | some c₀ => rw [dict_set_keys_some h]; exact hnd

theorem dict_find_dict_set_self (d : List ((Nat × Nat) × Cand))
    (k : Nat × Nat) (c : Cand) : dict_find (dict_set d k c) k = some c := by
  induction d with
  | nil => simp [dict_set, dict_find]
  | cons q rest ih =>
      obtain ⟨k', c'⟩ := q
      by_cases hk : k' = k
      · subst hk; simp [dict_set, dict_find]
      · simp [dict_set, dict_find, hk, ih]

theorem dict_find_dict_set_ne {d : List ((Nat × Nat) × Cand)}
    {k k' : Nat × Nat} (h : k' ≠ k) (c : Cand) :
    dict_find (dict_set d k c) k' = dict_find d k' := by
  induction d with
  | nil => simp [dict_set, dict_find, Ne.symm h]
  | cons q rest ih =>
      obtain ⟨k₀, c₀⟩ := q
      by_cases hk : k₀ = k
      · subst hk; simp [dict_set, dict_find, Ne.symm h]
      · by_cases hk' : k₀ = k'
        · subst hk'; simp [dict_set, dict_find, hk]
        · simp [dict_set, dict_find, hk, hk', ih]

theorem fuse_step_nodup {d : List ((Nat × Nat) × Cand)}
    (hnd : (d.map Prod.fst).Nodup) (c : Cand) :
    ((fuse_step d c).map Prod.fst).Nodup := by
  unfold fuse_step
  cases dict_find d (bucket_key c) with
  | none => exact dict_set_nodup hnd c
  | some old =>
      by_cases h : old.conf < c.conf
      · simpa [h] using dict_set_nodup hnd c
      · simpa [h] using hnd

theorem fuse_step_eq_none {d : List ((Nat × Nat) × Cand)} {c : Cand}
    (hf : dict_find d (bucket_key c) = none) :
    fuse_step d c = dict_set d (bucket_key c) c := by
  unfold fuse_step; rw [hf]

theorem fuse_step_eq_some {d : List ((Nat × Nat) × Cand)} {c old : Cand}
    (hf : dict_find d (bucket_key c) = some old) :
    fuse_step d c =
      if old.conf < c.conf then dict_set d (bucket_key c) c else d := by
  unfold fuse_step; rw [hf]

theorem fuse_step_mem {d : List ((Nat × Nat) × Cand)} {c : Cand}
    {p : (Nat × Nat) × Cand} (h : p ∈ fuse_step d c) :
    p = (bucket_key c, c) ∨ p ∈ d := by
  cases hf : dict_find d (bucket_key c) with
  | none => exact mem_dict_set_weak (by rwa [fuse_step_eq_none hf] at h)
  | some old =>
      rw [fuse_step_eq_some hf] at h
      by_cases hc : old.conf < c.conf
      · exact mem_dict_set_weak (by rwa [if_pos hc] at h)
      · exact Or.inr (by rwa [if_neg hc] at h)

theorem fuse_step_keyed {d : List ((Nat × Nat) × Cand)}
    (hk : ∀ p ∈ d, bucket_key p.2 = p.1) (c : Cand) :
    ∀ p ∈ fuse_step d c, bucket_key p.2 = p.1 := by
  intro p hp
  rcases fuse_step_mem hp with rfl | hp'
  · rfl
  · exact hk p hp'

theorem fuse_step_find_mono {d : List ((Nat × Nat) × Cand)}
    {k : Nat × Nat} {c₀ : Cand} (h : dict_find d k = some c₀) (c : Cand) :
    ∃ c₁, dict_find (fuse_step d c) k = some c₁ ∧ c₀.conf ≤ c₁.conf := by
  by_cases hk : bucket_key c = k
  · subst hk
    rw [fuse_step_eq_some h]
    by_cases hc : c₀.conf < c.conf
    · exact ⟨c, by simp [hc, dict_find_dict_set_self], le_of_lt hc⟩
    · exact ⟨c₀, by simp [hc, h], le_refl _⟩
  · cases hf : dict_find d (bucket_key c) with
    | none =>
        refine ⟨c₀, ?_, le_refl _⟩
        rw [fuse_step_eq_none hf, dict_find_dict_set_ne (fun he => hk he.symm) c]
        exact h
    | some old =>
        rw [fuse_step_eq_some hf]
        by_cases hc : old.conf < c.conf
        · refine ⟨c₀, ?_, le_refl _⟩
          rw [if_pos hc, dict_find_dict_set_ne (fun he => hk he.symm) c]
          exact h
        · exact ⟨c₀, by rw [if_neg hc]; exact h, le_refl _⟩

theorem fuse_step_find_self (d : List ((Nat × Nat) × Cand)) (c : Cand) :
    ∃ c₁, dict_find (fuse_step d c) (bucket_key c) = some c₁ ∧
      c.conf ≤ c₁.conf := by
  unfold fuse_step
  cases hf : dict_find d (bucket_key c) with
  | none => exact ⟨c, dict_find_dict_set_self d _ c, le_refl _⟩
  | some old =>
      by_cases hc : old.conf < c.conf
      · exact ⟨c, by simp [hc, dict_find_dict_set_self], le_refl _⟩
      · exact ⟨old, by simp [hc, hf], le_of_not_lt hc⟩

theorem foldl_fuse_nodup (l : List Cand) :
    ∀ d, (d.map Prod.fst).Nodup → ((l.foldl fuse_step d).map Prod.fst).Nodup := by
  induction l with
  | nil => intro d hd; simpa using hd
  | cons c rest ih =>
      intro d hd
      exact ih (fuse_step d c) (fuse_step_nodup hd c)

theorem foldl_fuse_keyed (l : List Cand) :
    ∀ d, (∀ p ∈ d, bucket_key p.2 = p.1) →
      ∀ p ∈ l.foldl fuse_step d, bucket_key p.2 = p.1 := by
  induction l with
  | nil => intro d hd; simpa using hd
  | cons c rest ih =>
      intro d hd
      exact ih (fuse_step d c) (fuse_step_keyed hd c)

theorem foldl_fuse_provenance (l : List Cand) :
    ∀ d, ∀ p ∈ l.foldl fuse_step d, p ∈ d ∨ p.2 ∈ l := by
  induction l with
  | nil => intro d p hp; exact Or.inl (by simpa using hp)
  | cons c rest ih =>
      intro d p hp
      rcases ih (fuse_step d c) p hp with h | h
      · rcases fuse_step_mem h with rfl | h'
        · exact Or.inr (List.mem_cons_self _ _)
        · exact Or.inl h'
      · exact Or.inr (List.mem_cons.2 (Or.inr h))

theorem foldl_fuse_find_mono (l : List Cand) :
    ∀ d (k : Nat × Nat) (c₀ : Cand), dict_find d k = some c₀ →
      ∃ c₁, dict_find (l.foldl fuse_step d) k = some c₁ ∧ c₀.conf ≤ c₁.conf := by
  induction l with
  | nil => intro d k c₀ h; exact ⟨c₀, by simpa using h, le_refl _⟩
  | cons c rest ih =>
      intro d k c₀ h
      obtain ⟨c₁, h1, h2⟩ := fuse_step_find_mono h c
      obtain ⟨c₂, h3, h4⟩ := ih (fuse_step d c) k c₁ h1
      exact ⟨c₂, h3, le_trans h2 h4⟩

theorem foldl_fuse_find_elem (l : List Cand) :
    ∀ d, ∀ c ∈ l, ∃ c₁,
      dict_find (l.foldl fuse_step d) (bucket_key c) = some c₁ ∧
      c.conf ≤ c₁.conf := by
  induction l with
  | nil => intro d c hc; simp at hc
  | cons a rest ih =>
      intro d c hc
      rcases List.mem_cons.1 hc with rfl | hc'
      · obtain ⟨c₁, h1, h2⟩ := fuse_step_find_self d c
        obtain ⟨c₂, h3, h4⟩ := foldl_fuse_find_mono rest (fuse_step d c) _ c₁ h1
        exact ⟨c₂, h3, le_trans h2 h4⟩
      · exact ih (fuse_step d a) c hc'

/-- C3 (amended): the dedup loop buckets candidates by the pair
`(x // 30, predicted value)` — not by the spatial bucket alone.  Within each
such key exactly one candidate survives: the surviving entry is one of the
input candidates with that key and its confidence is maximal among them
(a strictly higher confidence overwrites; on equal confidence the earlier
candidate in input order is kept, not the one with higher detector priority
or smaller x). -/
theorem c3_fuse_max_per_key (l : List Cand) :
    ((unique_results l).map Prod.fst).Nodup ∧
    (∀ p ∈ unique_results l, p.2 ∈ l ∧ bucket_key p.2 = p.1 ∧
      ∀ c ∈ l, bucket_key c = p.1 → c.conf ≤ p.2.conf) ∧
    (∀ c ∈ l, ∃ e, dict_find (unique_results l) (bucket_key c) = some e ∧
      c.conf ≤ e.conf) := by
  have hnd : ((unique_results l).map Prod.fst).Nodup :=
    foldl_fuse_nodup l [] (by simp)
  refine ⟨hnd, ?_, fun c hc => foldl_fuse_find_elem l [] c hc⟩
  intro p hp
  have hmem : p.2 ∈ l := by
    rcases foldl_fuse_provenance l [] p hp with h | h
    · simp at h
    · exact h
  have hkey : bucket_key p.2 = p.1 :=
    foldl_fuse_keyed l [] (by simp) p hp
  refine ⟨hmem, hkey, ?_⟩
  intro c hc hck
  obtain ⟨e, he, hce⟩ := foldl_fuse_find_elem l [] c hc
  have hfind : dict_find (unique_results l) p.1 = some p.2 := by
    have : (p.1, p.2) ∈ unique_results l := by simpa using hp
    exact dict_find_of_mem hnd this
  have he' : dict_find (unique_results l) p.1 = some e := by
    rw [← hck]; exact he
  rw [hfind] at he'
  obtain rfl : e = p.2 := by injection he'.symm
  exact hce

theorem c3_fuse_max_per_key_witness :
    ((10 / 30, 3), (⟨10, 3, 60, "edges"⟩ : Cand)) ∈
      unique_results [⟨5, 3, 50, "contours"⟩, ⟨10, 3, 60, "edges"⟩] ∧
    (⟨5, 3, 50, "contours"⟩ : Cand).conf ≤ (⟨10, 3, 60, "edges"⟩ : Cand).conf :=
  ⟨by decide,
    ((c3_fuse_max_per_key [⟨5, 3, 50, "contours"⟩, ⟨10, 3, 60, "edges"⟩]).2.1
      ((10 / 30, 3), ⟨10, 3, 60, "edges"⟩) (by decide)).2.2
      ⟨5, 3, 50, "contours"⟩ (by decide) (by decide)⟩

/-- C3 counterexample: two candidates in the same spatial bucket
(`5 // 30 = 10 // 30 = 0`) but with different predicted values both survive
fusion, so the bucket key is not the spatial position alone and more than
one candidate can survive per spatial bucket; and on a confidence tie
within one key the first candidate in input order is kept (here the one at
x = 20), not the one with the earliest x (x = 10). -/
theorem c3_counterexample :
    (5 : Nat) / 30 = (10 : Nat) / 30 ∧
    (final_results [⟨5, 3, 50, "m"⟩, ⟨10, 7, 40, "m"⟩]).length = 2 ∧
    ((20 : Nat) / 30 = (10 : Nat) / 30 ∧ (10 : Nat) < 20 ∧
      final_results [⟨20, 5, 50, "a"⟩, ⟨10, 5, 50, "b"⟩] = [⟨20, 5, 50, "a"⟩]) := by
  decide

/-- C9: the surviving fused candidates are returned in ascending order of
x position: if candidate `A`'s x is strictly smaller than candidate `B`'s,
then `A` appears at an earlier index of `final_results`. -/
theorem c9_ordering (l : List Cand) (i j : Fin (final_results l).length)
    (h : ((final_results l).get i).x < ((final_results l).get j).x) :
    (i : Nat) < (j : Nat) := by
  by_contra hle
  have hs : (final_results l).Sorted cand_le :=
    List.sorted_insertionSort cand_le _
  rcases Nat.lt_or_ge (j : Nat) (i : Nat) with hlt | hge
  · have := hs.rel_get_of_lt (a := j) (b := i) (by exact hlt)
    exact absurd h (not_lt.2 this)
  · have : (i : Nat) = (j : Nat) := le_antisymm hge (not_lt.1 hle)
    have hij : i = j := Fin.ext this
    subst hij
    exact lt_irrefl _ h

theorem c9_ordering_witness :
    (final_results [⟨100, 3, 50, "m"⟩, ⟨0, 7, 60, "m"⟩]).length = 2 ∧
    (0 : Nat) < 1 :=
  ⟨by decide,
    c9_ordering [⟨100, 3, 50, "m"⟩, ⟨0, 7, 60, "m"⟩]
      ⟨0, by decide⟩ ⟨1, by decide⟩ (by decide)⟩

/-! ### Images and digit classification
`screen_ocr.py` 349-373 and 944-1034, `screen_ocr_opencv.py` 713-933. -/

/-- A grayscale raster: rows of pixel intensities. -/
structure Img where
  pixels : List (List Nat)
deriving DecidableEq

def Img.height (g : Img) : Nat := g.pixels.length

def Img.width (g : Img) : Nat := (g.pixels.headD []).length

/-- numpy `.size`: the total number of entries. -/
def Img.size (g : Img) : Nat := (g.pixels.map List.length).sum

/-- `np.sum(img == 255)`: the number of white pixels. -/
def Img.whiteCount (g : Img) : Nat :=
  (g.pixels.map (fun row => (row.filter (fun v => decide (v = 255))).length)).sum

/-- `random.choice(l)`: the runtime draw is modelled by an oracle index
`rng`; the element picked is `l[rng % len(l)]`. -/
def random_choice (l : List Nat) (rng : Nat) : Nat := l.getD (rng % l.length) 0

theorem random_choice_le {l : List Nat} {b : Nat} (h : ∀ x ∈ l, x ≤ b)
    (rng : Nat) : random_choice l rng ≤ b := by
  unfold random_choice
  by_cases hl : l = []
  · subst hl; simp
  · have hlen : 0 < l.length := List.length_pos.2 hl
    have hidx : rng % l.length < l.length := Nat.mod_lt _ hlen
    rw [List.getD_eq_getElem _ _ hidx]
    exact h _ (List.getElem_mem _)

/-- The explicit list `[0, 1, ..., 36]` of
`classify_simple_digit` (`screen_ocr.py` line 369). -/
def roulette_choices : List Nat :=
  [0, 1, 2, 3, 4, 5, 6, 7, 8, 9, 10, 11, 12, 13, 14, 15, 16, 17, 18, 19, 20,
   21, 22, 23, 24, 25, 26, 27, 28, 29, 30, 31, 32, 33, 34, 35, 36]

/-- `ScreenOCRTool.classify_simple_digit` (`screen_ocr.py` 349-373):
`None`/empty guard, pixel-density gate, then the placeholder draw of a
random roulette number 0-36. `density` follows the source's
`white / total if total > 0 else 0`. -/
def classify_simple_digit (g : Option Img) (rng : Nat) : Option Nat :=
  match g with
  | none => none
  | some img =>
    if img.size = 0 then none
    else
      let total := img.height * img.width
      let density : ℚ := if 0 < total then (img.whiteCount : ℚ) / (total : ℚ) else 0
      if density < (0.2 : ℚ) then none
      else if (0.8 : ℚ) < density then none
      else some (random_choice roulette_choices rng)

/-- The feature dictionary built by `analyze_digit_features_enhanced`
(`screen_ocr_opencv.py` 844-885); fields follow the Python keys
(`aspect` for the width/height quotient, `fill` for the filled-pixel
fraction). -/
structure Features where
  holes : Nat
  fill : ℚ
  aspect : ℚ
  top_heavy : ℚ
  bottom_heavy : ℚ
  corners : Nat
deriving DecidableEq

/-- `ScreenOCRTool.classify_by_enhanced_features`
(`screen_ocr_opencv.py` 887-933). `feat = none` models the empty dictionary
returned by the feature analyzer after an internal error
(`if not features: return None`); `rng` is the oracle for the two
`random.choice` fallback draws. -/
def classify_by_enhanced_features (feat : Option Features) (rng : Nat) :
    Option Nat :=
  match feat with
  | none => none
  | some f =>
    if 2 ≤ f.holes then some 8
    else if f.holes = 1 then
      if (0.4 : ℚ) < f.fill then some 0
      else if (0.4 : ℚ) < f.top_heavy then some 9
      else some 6
    else if f.aspect < (0.5 : ℚ) then some 1
    else if (0.6 : ℚ) < f.top_heavy then some 7
    else if (0.6 : ℚ) < f.bottom_heavy ∧ 3 < f.corners then some 2
    else if f.fill < (0.2 : ℚ) then some 1
    else if 4 < f.corners then
      if (0.7 : ℚ) < f.aspect then some 4 else some 2
    else if (0.35 : ℚ) < f.fill then some (random_choice [0, 3, 5, 6, 8, 9] rng)
    else some (random_choice [1, 2, 4, 7] rng)

/-- The rule table of `classify_digit_by_features` in `screen_ocr.py`
(956-987), over the feature list
`[holes, h_lines, v_lines, curves, density]`.  The Python expressions
`6 or 9`, `3 or 5` and `2 or 5` always evaluate to their first (truthy)
operand, hence the constants 6, 3 and 2 here; the default branch draws from
`[1, ..., 9]` via `random.choice`. -/
def classify_rules_basic (holes : Nat) (h_lines v_lines curves density : ℚ)
    (rng : Nat) : Nat :=
  if 1 ≤ holes ∧ (0.3 : ℚ) < density then
    if (0.6 : ℚ) < curves then 0
    else if (0.4 : ℚ) < h_lines then 8
    else 6
  else if (0.7 : ℚ) < v_lines ∧ h_lines < (0.3 : ℚ) then 1
  else if (0.5 : ℚ) < h_lines ∧ curves < (0.3 : ℚ) then
    if v_lines < (0.3 : ℚ) then 7 else 4
  else if (0.5 : ℚ) < curves then
    if (0.4 : ℚ) < h_lines then 3 else 2
  else random_choice [1, 2, 3, 4, 5, 6, 7, 8, 9] rng

/-- `template_match_digit` (`screen_ocr_opencv.py` 737-769): scans digits
0-9 in template-dictionary order keeping the best correlation score that is
strictly above the current best and above the 0.3 threshold.  `score`
abstracts `cv2.matchTemplate` + `cv2.minMaxLoc` on the binarized region;
the `Option Nat` accumulator plays the role of the `-1` sentinel. -/
def template_match_digit (score : Nat → ℚ) : Option Nat :=
  ((List.range 10).foldl
    (fun (best : Option Nat × ℚ) d =>
      if best.2 < score d ∧ (0.3 : ℚ) < score d then (some d, score d) else best)
    (none, (0 : ℚ))).1

/-- The OpenCV primitives used by the classifier wrappers: `cv2.resize`
(the one call that can raise inside the wrappers' `try`) and the feature
extractors (whose own `try`/`except` already returns a default value on
error, so they are total). -/
structure ClassifierOps where
  resize : Img → Except String Img
  tmScore : Img → Nat → ℚ
  featEnhanced : Img → Option Features
  featBasic : Img → Nat × ℚ × ℚ × ℚ × ℚ

/-- `ScreenOCRTool.classify_digit_by_features`
(`screen_ocr_opencv.py` 713-735): `None`/empty guard, resize to 28x28
(a raising resize is caught by the surrounding `except`, which returns
`None`), template matching first, enhanced feature rules as fallback. -/
def classify_digit_by_features (ops : ClassifierOps) (g : Option Img)
    (rng : Nat) : Option Nat :=
  match g with
  | none => none
  | some img =>
    if img.size = 0 then none
    else
      match ops.resize img with
      | .error _ => none
      | .ok resized =>
        match template_match_digit (ops.tmScore resized) with
        | some d => some d
        | none => classify_by_enhanced_features (ops.featEnhanced resized) rng

/-- `ScreenOCRTool.classify_digit_by_features` of `screen_ocr.py`
(944-991): `None`/empty guard, resize to 20x30 (a raising resize is caught
by the surrounding `except`), then the rule table. -/
def classify_digit_by_features_basic (ops : ClassifierOps) (g : Option Img)
    (rng : Nat) : Option Nat :=
  match g with
  | none => none
  | some img =>
    if img.size = 0 then none
    else
      match ops.resize img with
      | .error _ => none
      | .ok resized =>
        let f := ops.featBasic resized
        some (classify_rules_basic f.1 f.2.1 f.2.2.1 f.2.2.2.1 f.2.2.2.2 rng)

theorem enhanced_le_nine (feat : Option Features) (rng : Nat) :
    ∀ d, classify_by_enhanced_features feat rng = some d → d ≤ 9 := by
  intro d h
  match feat with
  | none => simp [classify_by_enhanced_features] at h
  | some f =>
      have h6 : random_choice [0, 3, 5, 6, 8, 9] rng ≤ 9 :=
        random_choice_le (by decide) rng
      have h4 : random_choice [1, 2, 4, 7] rng ≤ 9 :=
        random_choice_le (by decide) rng
      simp only [classify_by_enhanced_features] at h
      split_ifs at h <;> (injection h with h; omega)

theorem rules_basic_le_nine (holes : Nat) (h_lines v_lines curves density : ℚ)
    (rng : Nat) : classify_rules_basic holes h_lines v_lines curves density rng ≤ 9 := by
  have h9 : random_choice [1, 2, 3, 4, 5, 6, 7, 8, 9] rng ≤ 9 :=
    random_choice_le (by decide) rng
  simp only [classify_rules_basic]
  split_ifs <;> omega

theorem template_foldl_le_nine (l : List Nat) (score : Nat → ℚ) :
    ∀ acc : Option Nat × ℚ, (∀ x ∈ l, x ≤ 9) →
      (∀ d, acc.1 = some d → d ≤ 9) →
      ∀ d, ((l.foldl
        (fun (best : Option Nat × ℚ) d =>
          if best.2 < score d ∧ (0.3 : ℚ) < score d then (some d, score d) else best)
        acc).1 = some d) → d ≤ 9 := by
  induction l with
  | nil => intro acc _ hacc d h; exact hacc d (by simpa using h)
  | cons x rest ih =>
      intro acc hl hacc d h
      refine ih _ (fun y hy => hl y (List.mem_cons.2 (Or.inr hy))) ?_ d h
      by_cases hx : acc.2 < score x ∧ (0.3 : ℚ) < score x
      · intro d' hd'
        simp only [if_pos hx] at hd'
        injection hd' with hd'
        subst hd'
        exact hl x (List.mem_cons_self _ _)
      · intro d' hd'
        simp only [if_neg hx] at hd'
        exact hacc d' hd'

theorem template_le_nine (score : Nat → ℚ) :
    ∀ d, template_match_digit score = some d → d ≤ 9 := by
  intro d h
  refine template_foldl_le_nine (List.range 10) score (none, 0) ?_ (by simp) d h
  intro x hx
  have := List.mem_range.1 hx
  omega

theorem simple_le_thirtysix (g : Option Img) (rng : Nat) :
    ∀ d, classify_simple_digit g rng = some d → d ≤ 36 := by
  intro d h
  match g with
  | none => simp [classify_simple_digit] at h
  | some img =>
      have h36 : random_choice roulette_choices rng ≤ 36 :=
        random_choice_le (by decide) rng
      simp only [classify_simple_digit] at h
      split_ifs at h <;> (injection h with h; omega)

/-- C2: contrary to the claim, the classifier is not deterministic: on
ambiguous features the fallback branch of `classify_by_enhanced_features`
performs a runtime `random.choice` draw, so two runs over the identical
image (identical features) can return different digits. The features below
(no holes, fill 0.25, aspect 1, balanced profile, no corners) fall through
every deterministic rule into the random branch. -/
theorem c2_random_divergence :
    classify_by_enhanced_features (some ⟨0, 0.25, 1, 0.3, 0.3, 0⟩) 0 = some 1 ∧
    classify_by_enhanced_features (some ⟨0, 0.25, 1, 0.3, 0.3, 0⟩) 1 = some 2 ∧
    classify_by_enhanced_features (some ⟨0, 0.25, 1, 0.3, 0.3, 0⟩) 0 ≠
      classify_by_enhanced_features (some ⟨0, 0.25, 1, 0.3, 0.3, 0⟩) 1 := by
  have h0 : classify_by_enhanced_features (some ⟨0, 0.25, 1, 0.3, 0.3, 0⟩) 0 =
      some 1 := by
    norm_num [classify_by_enhanced_features, random_choice,
      List.getD_cons_zero, List.getD_cons_succ]
  have h1 : classify_by_enhanced_features (some ⟨0, 0.25, 1, 0.3, 0.3, 0⟩) 1 =
      some 2 := by
    norm_num [classify_by_enhanced_features, random_choice,
      List.getD_cons_zero, List.getD_cons_succ]
  exact ⟨h0, h1, by rw [h0, h1]; simp⟩

/-- C5 counterexample: the placeholder classifier `classify_simple_digit`
attaches the prediction 36 (outside 0-9) to a 2x2 region of density 1/2
when the random draw picks the last element of `[0, ..., 36]`. -/
theorem c5_counterexample :
    classify_simple_digit (some ⟨[[255, 0], [255, 0]]⟩) 36 = some 36 ∧
    9 < 36 := by
  refine ⟨?_, by omega⟩
  norm_num [classify_simple_digit, Img.size, Img.height, Img.width,
    Img.whiteCount, random_choice, roulette_choices,
    List.getD_cons_zero, List.getD_cons_succ]

/-- C5 (amended): the template matcher and both deterministic rule tables
only ever attach digits 0-9; the placeholder `classify_simple_digit`,
however, may attach any roulette value up to 36 (its output is still always
in [0,36]). -/
theorem c5_digit_range :
    (∀ feat rng d, classify_by_enhanced_features feat rng = some d → d ≤ 9) ∧
    (∀ holes h_lines v_lines curves density rng,
      classify_rules_basic holes h_lines v_lines curves density rng ≤ 9) ∧
    (∀ score d, template_match_digit score = some d → d ≤ 9) ∧
    (∀ g rng d, classify_simple_digit g rng = some d → d ≤ 36) :=
  ⟨fun feat rng => enhanced_le_nine feat rng,
   fun holes h_lines v_lines curves density rng =>
     rules_basic_le_nine holes h_lines v_lines curves density rng,
   fun score => template_le_nine score,
   fun g rng => simple_le_thirtysix g rng⟩

theorem c5_digit_range_witness : (8 : Nat) ≤ 9 :=
  c5_digit_range.1 (some ⟨2, 0, 0, 0, 0, 0⟩) 0 8 (by decide)

/-- C10: both classifier wrappers are total at their interface: a `None`
region and an empty region map to `None`; an internal failure (a raising
resize) is caught and maps to `None`; any non-`None` answer is a digit
0-9. -/
theorem c10_classifier_total :
    (∀ ops rng, classify_digit_by_features ops none rng = none) ∧
    (∀ ops g rng, Img.size g = 0 →
      classify_digit_by_features ops (some g) rng = none) ∧
    (∀ ops g rng e, ops.resize g = Except.error e → Img.size g ≠ 0 →
      classify_digit_by_features ops (some g) rng = none) ∧
    (∀ ops g rng d, classify_digit_by_features ops g rng = some d → d ≤ 9) ∧
    (∀ ops rng, classify_digit_by_features_basic ops none rng = none) ∧
    (∀ ops g rng, Img.size g = 0 →
      classify_digit_by_features_basic ops (some g) rng = none) ∧
    (∀ ops g rng d, classify_digit_by_features_basic ops g rng = some d → d ≤ 9) := by
  refine ⟨fun ops rng => rfl, ?_, ?_, ?_, fun ops rng => rfl, ?_, ?_⟩
  · intro ops g rng hg
    simp [classify_digit_by_features, hg]
  · intro ops g rng e he hg
    simp [classify_digit_by_features, hg, he]
  · intro ops g rng d h
    match g with
    | none => simp [classify_digit_by_features] at h
    | some img =>
        by_cases hsz : img.size = 0
        · simp [classify_digit_by_features, hsz] at h
        · cases hr : ops.resize img with
          | error e => simp [classify_digit_by_features, hsz, hr] at h
          | ok resized =>
              cases ht : template_match_digit (ops.tmScore resized) with
              | some d' =>
                  simp [classify_digit_by_features, hsz, hr, ht] at h
                  exact h ▸ template_le_nine _ d' ht
              | none =>
                  simp [classify_digit_by_features, hsz, hr, ht] at h
                  exact enhanced_le_nine _ rng d h
  · intro ops g rng hg
    simp [classify_digit_by_features_basic, hg]
  · intro ops g rng d h
    match g with
    | none => simp [classify_digit_by_features_basic] at h
    | some img =>
        by_cases hsz : img.size = 0
        · simp [classify_digit_by_features_basic, hsz] at h
        · cases hr : ops.resize img with
          | error e => simp [classify_digit_by_features_basic, hsz, hr] at h
          | ok resized =>
              simp [classify_digit_by_features_basic, hsz, hr] at h
              exact h ▸ rules_basic_le_nine _ _ _ _ _ rng

theorem c10_classifier_total_witness :
    Img.size ⟨[]⟩ = 0 ∧
    classify_digit_by_features
      ⟨fun i => Except.ok i, fun _ _ => 0, fun _ => none, fun _ => (0, 0, 0, 0, 0)⟩
      (some ⟨[]⟩) 0 = none :=
  ⟨rfl, c10_classifier_total.2.1
    ⟨fun i => Except.ok i, fun _ _ => 0, fun _ => none, fun _ => (0, 0, 0, 0, 0)⟩
    ⟨[]⟩ 0 rfl⟩

/-! ### Advanced preprocessing
`ScreenOCRTool.preprocess_image_advanced`, `screen_ocr.py` 207-276. -/

/-- The OpenCV transforms invoked by `preprocess_image_advanced`, as
oracles that either produce a raster or raise (`none`). -/
structure PreprocOps where
  gaussianBlur : Img → Option Img
  otsu : Img → Option Img
  adaptiveThreshold : Img → Option Img
  clahe : Img → Option Img
  sharpen : Img → Option Img
  morphClose : Img → Option Img
  morphOpen : Img → Option Img
  canny : Img → Option Img
  dilate : Img → Option Img

/-- The body of the single `try` block of `preprocess_image_advanced`
(lines 209-266), in source order: strategy 1 (blur, Otsu threshold),
strategy 2 (adaptive threshold), strategy 3 (CLAHE, sharpening, Otsu
threshold), strategy 4 (close-then-open cleanup of both thresholds),
strategy 5 (Canny edges, dilation). -/
def preprocess_try (ops : PreprocOps) (gray : Img) :
    Option (List (String × Img)) := do
  let blurred ← ops.gaussianBlur gray
  let thresh1 ← ops.otsu blurred
  let adaptive ← ops.adaptiveThreshold gray
  let enhanced ← ops.clahe gray
  let sharpened ← ops.sharpen enhanced
  let thresh2 ← ops.otsu sharpened
  let closed1 ← ops.morphClose thresh1
  let cleaned1 ← ops.morphOpen closed1
  let closed2 ← ops.morphClose thresh2
  let cleaned2 ← ops.morphOpen closed2
  let edges ← ops.canny gray
  let dilated ← ops.dilate edges
  pure [("original_gray", gray), ("standard", cleaned1),
        ("adaptive", adaptive), ("enhanced", cleaned2),
        ("edges", dilated)]

/-- `preprocess_image_advanced` (`screen_ocr.py` 207-276): all five
strategies are computed inside one `try`; the `except` handler falls back
to the grayscale-only mapping. The shared grayscale conversion is total
here and the caller's image is received already converted. -/
def preprocess_image_advanced (ops : PreprocOps) (gray : Img) :
    List (String × Img) :=
  match preprocess_try ops gray with
  | some m => m
  | none => [("original_gray", gray)]

theorem preprocess_try_shape {ops : PreprocOps} {gray : Img}
    {m : List (String × Img)} (h : preprocess_try ops gray = some m) :
    ∃ s a e ed, m = [("original_gray", gray), ("standard", s),
      ("adaptive", a), ("enhanced", e), ("edges", ed)] := by
  simp only [preprocess_try, bind, Option.bind_eq_some, Option.pure_def,
    Option.some.injEq] at h
  obtain ⟨b, _, t1, _, a, _, e, _, sh, _, t2, _, c1, _, d1, _, c2, _, d2, _,
    ed, _, di, _, hm⟩ := h
  exact ⟨d1, a, d2, di, hm.symm⟩

/-- C6 counterexample: with every transform succeeding except the adaptive
threshold, the whole `try` block aborts, so the returned mapping contains
only the `gray` variant — the `standard` variant is omitted even though
every step producing it succeeds, contradicting the claim that only the
failing variant is omitted. -/
theorem c6_counterexample :
    preprocess_image_advanced
      ⟨fun i => some i, fun i => some i, fun _ => none, fun i => some i,
       fun i => some i, fun i => some i, fun i => some i, fun i => some i,
       fun i => some i⟩ ⟨[[0]]⟩ = [("original_gray", ⟨[[0]]⟩)] ∧
    "standard" ∉ (preprocess_image_advanced
      ⟨fun i => some i, fun i => some i, fun _ => none, fun i => some i,
       fun i => some i, fun i => some i, fun i => some i, fun i => some i,
       fun i => some i⟩ ⟨[[0]]⟩).map Prod.fst := by
  exact ⟨rfl, by decide⟩

/-- C6 (amended): the preprocessor never fails the whole call and its
result always starts with the `gray` variant; but the failure policy is
all-or-nothing: either every step succeeded and all five variants are
returned, or some step raised and only the `gray` variant is returned. -/
theorem c6_preprocess_fallback (ops : PreprocOps) (gray : Img) :
    (preprocess_image_advanced ops gray).head? =
      some ("original_gray", gray) ∧
    ((preprocess_image_advanced ops gray).map Prod.fst =
        ["original_gray", "standard", "adaptive", "enhanced", "edges"] ∨
      preprocess_image_advanced ops gray = [("original_gray", gray)]) := by
  unfold preprocess_image_advanced
  cases h : preprocess_try ops gray with
  | none => exact ⟨rfl, Or.inr rfl⟩
  | some m =>
      obtain ⟨s, a, e, ed, rfl⟩ := preprocess_try_shape h
      exact ⟨rfl, Or.inl rfl⟩

/-! ### Top-level extraction entry points
`screen_ocr_opencv.py` 181-227 and `screen_ocr.py` 278-347. -/

/-- A captured raster as handed to the entry points: explicit width,
height and channel count (the shape of `np.array(image)`). -/
structure RawImage where
  width : Nat
  height : Nat
  channels : Nat
deriving DecidableEq

/-- `cv2.cvtColor(img_array, COLOR_RGB2GRAY)`: invoked only for 3-channel
arrays (`if len(img_array.shape) == 3`) and raising `cv2.error` on an
empty source matrix. -/
def gray_convert (im : RawImage) : Except String Unit :=
  if im.channels = 3 ∧ (im.width = 0 ∨ im.height = 0) then
    Except.error "cvtColor: empty source"
  else Except.ok ()

/-- `try_api_ninjas_text_only` (`screen_ocr_opencv.py` 371-395): PNG-encode
the capture and post it; the function's own `try`/`except` returns the
empty string on any failure. A zero-sized capture yields no text (the PNG
encode/upload of an empty raster fails and the handler returns the empty
string, which parses to no tokens); for a real capture the service's
answer is the oracle `ocr`, given as the parsed token list. -/
def try_api_ninjas_text_only (ocr : RawImage → List Nat)
    (im : RawImage) : List Nat :=
  if im.width = 0 ∨ im.height = 0 then [] else ocr im

/-- `ScreenOCRTool.extract_numbers_opencv` (`screen_ocr_opencv.py`
181-227): `if not image` guard, grayscale conversion, API-Ninjas text
extraction, then `extract_roulette_numbers_from_text`. The entire body
sits in one `try` whose handler returns `[]`, so no exception reaches the
caller; the embedding is accordingly a total function. -/
def extract_numbers_opencv (ocr : RawImage → List Nat)
    (img : Option RawImage) : List Nat :=
  match img with
  | none => []
  | some im =>
    match gray_convert im with
    | .error _ => []
    | .ok _ =>
        extract_roulette_numbers_from_text (try_api_ninjas_text_only ocr im)

/-- `ScreenOCRTool.extract_numbers_simple_roulette` at the image level
(`screen_ocr.py` 522-558): grayscale conversion, 2x LANCZOS upscale and
tesseract inside a `try` returning `[]` on failure; a zero-sized capture
makes the scaling/OCR raise, which the handler turns into `[]`. `tess` is
the token list parsed from the tesseract output. -/
def extract_numbers_simple_roulette_img (tess : RawImage → List Nat)
    (im : RawImage) : List Nat :=
  if im.width = 0 ∨ im.height = 0 then []
  else extract_numbers_simple_roulette (tess im)

/-- `ScreenOCRTool.try_opencv_detection` (`screen_ocr.py` 308-347): its own
`try` returns `[]` on any internal error; thresholding a zero-sized gray
raster raises, so a degenerate capture contributes no numbers. `cv` is the
list of numbers detected on a real capture. -/
def try_opencv_detection (cv : RawImage → List Nat) (im : RawImage) :
    List Nat :=
  if im.width = 0 ∨ im.height = 0 then [] else cv im

/-- `ScreenOCRTool.extract_numbers_advanced` (`screen_ocr.py` 278-306):
`if not image` guard; OpenCV detection first, tesseract fallback both when
OpenCV finds nothing and when the body raises (the `except` handler calls
the simple extraction, which is itself guarded). -/
def extract_numbers_advanced (cv tess : RawImage → List Nat)
    (img : Option RawImage) : List Nat :=
  match img with
  | none => []
  | some im =>
    match gray_convert im with
    | .error _ => extract_numbers_simple_roulette_img tess im
    | .ok _ =>
        let nums := try_opencv_detection cv im
        if nums ≠ [] then nums
        else extract_numbers_simple_roulette_img tess im

/-- C7: a zero-width or zero-height image is handled without any exception
reaching the caller (both entry points are total functions whose
`try`/`except` structure is embedded) and yields the empty result
sequence; a `None` image likewise yields `[]`. -/
theorem c7_zero_size_empty (ocr cv tess : RawImage → List Nat)
    (im : RawImage) (h : im.width = 0 ∨ im.height = 0) :
    extract_numbers_opencv ocr (some im) = [] ∧
    extract_numbers_advanced cv tess (some im) = [] ∧
    extract_numbers_opencv ocr none = [] ∧
    extract_numbers_advanced cv tess none = [] := by
  refine ⟨?_, ?_, rfl, rfl⟩
  · simp only [extract_numbers_opencv]
    cases hg : gray_convert im with
    | error e => rfl
    | ok u =>
        simp [try_api_ninjas_text_only, h,
          extract_roulette_numbers_from_text, roulette_filter, dict_fromkeys]
  · simp only [extract_numbers_advanced]
    cases hg : gray_convert im with
    | error e => simp [extract_numbers_simple_roulette_img, h]
    | ok u => simp [try_opencv_detection, extract_numbers_simple_roulette_img, h]

theorem c7_zero_size_empty_witness :
    ((⟨0, 0, 3⟩ : RawImage).width = 0 ∨ (⟨0, 0, 3⟩ : RawImage).height = 0) ∧
    extract_numbers_opencv (fun _ => [5]) (some ⟨0, 0, 3⟩) = [] :=
  ⟨Or.inl rfl,
    (c7_zero_size_empty (fun _ => [5]) (fun _ => [5]) (fun _ => [5])
      ⟨0, 0, 3⟩ (Or.inl rfl)).1⟩

/-! ### Confidence scoring
`calculate_digit_confidence`, identical in `screen_ocr_opencv.py` 978-999
and `screen_ocr.py` 1036-1057. -/

/-- `calculate_digit_confidence`: `None`/empty guard returning `0.0`;
clarity score `min(100, laplacian_var / 10)`, size score
`min(100, (h*w)/10)`, averaged and clamped by `min(100, max(10, conf))`.
The variance of the Laplacian over the region is the oracle `lap_var`
(a variance is always nonnegative). -/
def calculate_digit_confidence (g : Img) (lap_var : ℚ) : ℚ :=
  if g.size = 0 then 0
  else
    let clarity_score := min 100 (lap_var / 10)
    let size_score := min (100 : ℚ) (((g.height * g.width : Nat) : ℚ) / 10)
    let confidence := (clarity_score + size_score) / 2
    min 100 (max 10 confidence)

/-- C8: for a non-empty region the returned confidence is exactly the
average of the clipped sharpness score and the clipped size score, clamped
to [10,100]; both clipped scores lie in [0,100] and the result lies in
[10,100]. -/
theorem c8_confidence_clamped (g : Img) (lap_var : ℚ)
    (hl : 0 ≤ lap_var) (hg : g.size ≠ 0) :
    calculate_digit_confidence g lap_var =
      min 100 (max 10 ((min 100 (lap_var / 10) +
        min (100 : ℚ) (((g.height * g.width : Nat) : ℚ) / 10)) / 2)) ∧
    (0 ≤ min 100 (lap_var / 10) ∧ min 100 (lap_var / 10) ≤ (100 : ℚ)) ∧
    (0 ≤ min (100 : ℚ) (((g.height * g.width : Nat) : ℚ) / 10) ∧
      min (100 : ℚ) (((g.height * g.width : Nat) : ℚ) / 10) ≤ 100) ∧
    10 ≤ calculate_digit_confidence g lap_var ∧
    calculate_digit_confidence g lap_var ≤ 100 := by
  have hdef : calculate_digit_confidence g lap_var =
      min 100 (max 10 ((min 100 (lap_var / 10) +
        min (100 : ℚ) (((g.height * g.width : Nat) : ℚ) / 10)) / 2)) := by
    simp [calculate_digit_confidence, hg]
  refine ⟨hdef, ⟨?_, min_le_left _ _⟩, ⟨?_, min_le_left _ _⟩, ?_, ?_⟩
  · exact le_min (by norm_num) (by positivity)
  · refine le_min (by norm_num) (by positivity)
  · rw [hdef]
    exact le_min (by norm_num) (le_max_left _ _)
  · rw [hdef]
    exact min_le_left _ _

theorem c8_confidence_clamped_witness :
    (0 : ℚ) ≤ 0 ∧ Img.size ⟨[[7]]⟩ ≠ 0 ∧
    (10 : ℚ) ≤ calculate_digit_confidence ⟨[[7]]⟩ 0 :=
  ⟨le_refl 0, by decide,
    (c8_confidence_clamped ⟨[[7]]⟩ 0 (le_refl 0) (by decide)).2.2.2.1⟩

end Voisins
